import Mathlib

set_option maxRecDepth 8192

/-!
Verification development for the TBF multiplexing utility (`TBF/tbfMux.py`).

The file embeds, as executable Lean definitions:

* `RawTBFFrame` and its validating constructor (frame size and sync-word
  checks), the `timetag` and `first_chan` header accessors, and
  `createFill`, all translated from `RawTBFFrame` / `RawTBFFrameBuffer`
  in `TBF/tbfMux.py`;
* the generic reorder-and-fill buffer machinery (`insert`, `pop_complete`,
  `drain`, flush-or-fill eviction).  In the source this machinery lives in
  the external `lsl.reader.buffer.FrameBufferBase` class, which is not part
  of this repository; those definitions are modelled from the spec
  (section 4.1, "ReorderFillBuffer") and are marked as such, while the
  subclass hooks (`createFill`, figure of merit = `timetag`,
  frame ID = `first_chan`, expected-frame list = `chans`) follow the source;
* the channel-continuity check performed by `main` before any buffering.

Theorems about these definitions settle the claims about the component.
-/

/-- Payload bytes of one TBF frame: 12 channels × 256 stands × 2
polarisations, the zero-fill width `12*256*2` used in
`RawTBFFrameBuffer.createFill`. -/
def PAYLOAD_SIZE : Nat := 12 * 256 * 2

/-- Size in bytes of one TBF frame: a 24-byte header followed by the
payload. -/
def FRAME_SIZE : Nat := 24 + PAYLOAD_SIZE

/-- Errors raised by the `RawTBFFrame` constructor: `eof` models
`lsl.reader.errors.EOFError` (wrong byte count) and `sync` models
`lsl.reader.errors.SyncError` (bad sync word). -/
inductive TbfError where
  | eof
  | sync
deriving Repr, DecidableEq

/-- A raw (packed) TBF frame: the `contents` bytearray of the Python class
`RawTBFFrame`, one natural number per byte. -/
structure RawTBFFrame where
  contents : List Nat
deriving Repr, DecidableEq, Inhabited

namespace RawTBFFrame

/-- Byte access `self.contents[i]`; out-of-range reads return 0 (the
Python code only indexes frames whose length was validated). -/
def byte (f : RawTBFFrame) (i : Nat) : Nat :=
  f.contents.getD i 0

/-- The validating constructor `RawTBFFrame.__init__`: store the bytes,
raise `EOFError` if the length is not `FRAME_SIZE`, then raise
`SyncError` unless the first four bytes are `0xDE 0xC0 0xDE 0x5C`. -/
def make (contents : List Nat) : Except TbfError RawTBFFrame :=
  if contents.length ≠ FRAME_SIZE then
    .error .eof
  else if ¬ (contents.getD 0 0 = 0xDE ∧ contents.getD 1 0 = 0xC0 ∧
             contents.getD 2 0 = 0xDE ∧ contents.getD 3 0 = 0x5C) then
    .error .sync
  else
    .ok ⟨contents⟩

/-- The `timetag` property: the big-endian 64-bit value formed from
bytes 16–23 by the shift-and-or chain in the source. -/
def timetag (f : RawTBFFrame) : Nat :=
  (f.byte 16) <<< 56 ||| (f.byte 17) <<< 48 ||| (f.byte 18) <<< 40 |||
  (f.byte 19) <<< 32 ||| (f.byte 20) <<< 24 ||| (f.byte 21) <<< 16 |||
  (f.byte 22) <<< 8 ||| (f.byte 23)

/-- The `first_chan` property: `(contents[12] << 8) | contents[13]`. -/
def first_chan (f : RawTBFFrame) : Nat :=
  (f.byte 12) <<< 8 ||| (f.byte 13)

end RawTBFFrame

/-- `RawTBFFrameBuffer.createFill(key, frameParameters)`: clone (deep copy)
the first frame held for the key being filled (`self.buffer[key][0]`),
rewrite header bytes 12–13 to the requested start channel, and replace
everything from byte 24 on with `12*256*2` zero bytes.  The function takes
the list of frames pending at the key; it returns `none` exactly when that
list is empty (the `IndexError` case of `self.buffer[key][0]`).  The deep
copy means the stored template is never mutated, which the purely
functional embedding reflects by construction. -/
def createFill (framesAtKey : List RawTBFFrame) (chan : Nat) : Option RawTBFFrame :=
  match framesAtKey with
  | [] => none
  | t :: _ =>
    let c := t.contents
    let c := c.set 12 ((chan &&& 0xFF00) >>> 8)
    let c := c.set 13 (chan &&& 0x00FF)
    let c := c.take 24 ++ List.replicate PAYLOAD_SIZE 0
    some ⟨c⟩

section FrameTheorems

/-- Sync-word validity of a byte list, as tested by the constructor. -/
def syncOK (contents : List Nat) : Prop :=
  contents.getD 0 0 = 0xDE ∧ contents.getD 1 0 = 0xC0 ∧
  contents.getD 2 0 = 0xDE ∧ contents.getD 3 0 = 0x5C

instance (contents : List Nat) : Decidable (syncOK contents) := by
  unfold syncOK; infer_instance

/-- C8: the constructor rejects wrong-length input with `EOFError`, rejects
a bad sync word (on correctly sized input) with `SyncError`, and otherwise
succeeds storing the input bytes unchanged. -/
theorem rawFrame_constructor_spec (contents : List Nat) :
    (RawTBFFrame.make contents = .error .eof ↔ contents.length ≠ FRAME_SIZE)
    ∧ (RawTBFFrame.make contents = .error .sync ↔
        (contents.length = FRAME_SIZE ∧ ¬ syncOK contents))
    ∧ (RawTBFFrame.make contents = .ok ⟨contents⟩ ↔
        (contents.length = FRAME_SIZE ∧ syncOK contents))
    ∧ (∀ f, RawTBFFrame.make contents = .ok f → f.contents = contents) := by
  unfold RawTBFFrame.make syncOK
  split_ifs with h1 h2
  · simp [h1]
  · simp only [not_not] at h1
    simp [List.getD] at h2 ⊢
    tauto
  · simp only [not_not] at h1
    simp [List.getD] at h2 ⊢
    tauto

/-- C9: a fill frame is cloned from the first frame pending at the key:
header bytes other than 12–13 are copied (so the timetag is the template's),
bytes 12–13 encode the requested channel, and every byte from 24 on is zero.
The source deep-copies the template before editing, so the stored frame is
never mutated; the purely functional embedding reflects that by
construction. -/
theorem createFill_spec (framesAtKey : List RawTBFFrame) (t : RawTBFFrame) (chan : Nat)
    (hhead : framesAtKey.head? = some t) (hlen : t.contents.length = FRAME_SIZE) :
    ∃ fl, createFill framesAtKey chan = some fl ∧
      fl.contents.length = FRAME_SIZE ∧
      (∀ i, i < 24 → i ≠ 12 → i ≠ 13 → fl.byte i = t.byte i) ∧
      fl.byte 12 = (chan &&& 0xFF00) >>> 8 ∧
      fl.byte 13 = chan &&& 0x00FF ∧
      (∀ i, 24 ≤ i → fl.byte i = 0) ∧
      fl.timetag = t.timetag := by
  obtain ⟨a, rest, rfl⟩ : ∃ a rest, framesAtKey = a :: rest := by
    cases framesAtKey with
    | nil => simp at hhead
    | cons a r => exact ⟨a, r, rfl⟩
  have ha : a = t := by simpa using hhead
  subst ha
  have h12L : 12 < a.contents.length := by rw [hlen]; norm_num [FRAME_SIZE, PAYLOAD_SIZE]
  have h13L : 13 < (a.contents.set 12 ((chan &&& 0xFF00) >>> 8)).length := by
    rw [List.length_set, hlen]; norm_num [FRAME_SIZE, PAYLOAD_SIZE]
  have hbyte : ∀ i, i < 24 → i ≠ 12 → i ≠ 13 →
      (RawTBFFrame.mk (((a.contents.set 12 ((chan &&& 0xFF00) >>> 8)).set 13
        (chan &&& 0x00FF)).take 24 ++ List.replicate PAYLOAD_SIZE 0)).byte i
        = a.byte i := by
    intro i h24 h12 h13
    simp only [RawTBFFrame.byte, List.getD_eq_getElem?_getD]
    rw [List.getElem?_append_left (by
        simp only [List.length_take, List.length_set, hlen]
        norm_num [FRAME_SIZE, PAYLOAD_SIZE]
        omega),
      List.getElem?_take_of_lt h24,
      List.getElem?_set_ne (Ne.symm h13), List.getElem?_set_ne (Ne.symm h12)]
  refine ⟨⟨((a.contents.set 12 ((chan &&& 0xFF00) >>> 8)).set 13
      (chan &&& 0x00FF)).take 24 ++ List.replicate PAYLOAD_SIZE 0⟩,
    rfl, ?_, hbyte, ?_, ?_, ?_, ?_⟩
  · simp only [List.length_append, List.length_take, List.length_set,
      List.length_replicate, hlen]
    norm_num [FRAME_SIZE, PAYLOAD_SIZE]
  · simp only [RawTBFFrame.byte, List.getD_eq_getElem?_getD]
    rw [List.getElem?_append_left (by
        simp only [List.length_take, List.length_set, hlen]
        norm_num [FRAME_SIZE, PAYLOAD_SIZE]),
      List.getElem?_take_of_lt (by norm_num),
      List.getElem?_set_ne (by norm_num),
      List.getElem?_set_eq_of_lt _ h12L]
    rfl
  · simp only [RawTBFFrame.byte, List.getD_eq_getElem?_getD]
    rw [List.getElem?_append_left (by
        simp only [List.length_take, List.length_set, hlen]
        norm_num [FRAME_SIZE, PAYLOAD_SIZE]),
      List.getElem?_take_of_lt (by norm_num),
      List.getElem?_set_eq_of_lt _ h13L]
    rfl
  · intro i h24
    simp only [RawTBFFrame.byte, List.getD_eq_getElem?_getD]
    rw [List.getElem?_append_right (by
        simp only [List.length_take, List.length_set, hlen]
        norm_num [FRAME_SIZE, PAYLOAD_SIZE]
        omega),
      List.getElem?_replicate]
    split <;> rfl
  · simp only [RawTBFFrame.timetag]
    rw [hbyte 16 (by norm_num) (by norm_num) (by norm_num),
      hbyte 17 (by norm_num) (by norm_num) (by norm_num),
      hbyte 18 (by norm_num) (by norm_num) (by norm_num),
      hbyte 19 (by norm_num) (by norm_num) (by norm_num),
      hbyte 20 (by norm_num) (by norm_num) (by norm_num),
      hbyte 21 (by norm_num) (by norm_num) (by norm_num),
      hbyte 22 (by norm_num) (by norm_num) (by norm_num),
      hbyte 23 (by norm_num) (by norm_num) (by norm_num)]

/-- Number of bytes needed to pad a four-byte sync word up to a full frame;
kept as a named constant so concrete test frames stay compact. -/
def PAD_SIZE : Nat := FRAME_SIZE - 4

/-- A concrete full-size byte list with a valid sync word and a given
repeated body byte. -/
def syncedBytes (body : Nat) : List Nat :=
  [0xDE, 0xC0, 0xDE, 0x5C] ++ List.replicate PAD_SIZE body

/-- A concrete full-size byte list with an invalid sync word. -/
def badSyncBytes : List Nat :=
  [0, 0, 0, 0] ++ List.replicate PAD_SIZE 0

theorem syncedBytes_length (body : Nat) : (syncedBytes body).length = FRAME_SIZE := by
  simp only [syncedBytes, List.length_append, List.length_replicate]
  norm_num [PAD_SIZE, FRAME_SIZE, PAYLOAD_SIZE]

theorem badSyncBytes_length : badSyncBytes.length = FRAME_SIZE := by
  simp only [badSyncBytes, List.length_append, List.length_replicate]
  norm_num [PAD_SIZE, FRAME_SIZE, PAYLOAD_SIZE]

/-- Witness for C8 at concrete inputs: a valid frame is accepted unchanged,
a short read raises `EOFError`, and a full-size buffer with a bad sync word
raises `SyncError`. -/
theorem rawFrame_constructor_spec_witness :
    RawTBFFrame.make (syncedBytes 0) = .ok ⟨syncedBytes 0⟩ ∧
    RawTBFFrame.make [0xDE] = .error .eof ∧
    RawTBFFrame.make badSyncBytes = .error .sync :=
  ⟨(rawFrame_constructor_spec (syncedBytes 0)).2.2.1.mpr
      ⟨syncedBytes_length 0, by decide⟩,
    (rawFrame_constructor_spec [0xDE]).1.mpr (by decide),
    (rawFrame_constructor_spec badSyncBytes).2.1.mpr
      ⟨badSyncBytes_length, by decide⟩⟩

/-- A concrete template frame used as a `createFill` input. -/
def fillTemplate : RawTBFFrame := ⟨syncedBytes 7⟩

/-- Witness for C9: `createFill` applied to a concrete one-frame pending
list and channel `0x0102`. -/
theorem createFill_spec_witness :
    ∃ fl, createFill [fillTemplate] 0x0102 = some fl ∧
      fl.contents.length = FRAME_SIZE ∧
      (∀ i, i < 24 → i ≠ 12 → i ≠ 13 → fl.byte i = fillTemplate.byte i) ∧
      fl.byte 12 = (0x0102 &&& 0xFF00) >>> 8 ∧
      fl.byte 13 = 0x0102 &&& 0x00FF ∧
      (∀ i, 24 ≤ i → fl.byte i = 0) ∧
      fl.timetag = fillTemplate.timetag :=
  createFill_spec [fillTemplate] fillTemplate 0x0102 rfl (syncedBytes_length 7)

end FrameTheorems

/-! ## The reorder-and-fill buffer

`RawTBFFrameBuffer` subclasses `lsl.reader.buffer.FrameBufferBase`, an
external library class whose generic machinery is not part of this
repository.  The state and the `insert` / `pop_complete` / `drain`
operations below are therefore modelled from the spec (section 4.1,
"ReorderFillBuffer"), instantiated with the subclass hooks that the source
does define: the figure of merit (sequence key) of a frame is its
`timetag`, its channel identity is `first_chan`, the expected-channel list
is `chans`, and fill frames are synthesized with `createFill`. -/

/-- Pending state: an association list from sequence key to the frames
collected for that key, in arrival order.  Keys are unordered here; the
smallest is computed at eviction time. -/
abbrev PendingSet := List (Nat × List RawTBFFrame)

/-- Modelled from the spec: the `ReorderFillBuffer` component state.
`chans` (the configured channel set) and `nsegments` (the spec's
`window_depth`) are the constructor arguments of `RawTBFFrameBuffer`;
`buffer` is the pending map (the spec's `PendingSet`). -/
structure ReorderFillBuffer where
  chans : List Nat
  nsegments : Nat
  buffer : PendingSet
deriving Repr, DecidableEq, Inhabited

namespace ReorderFillBuffer

/-- A freshly constructed buffer: configured channels and window depth, no
pending frames.  The source default for `nsegments` is 25. -/
def init (chans : List Nat) (nsegments : Nat) : ReorderFillBuffer :=
  ⟨chans, nsegments, []⟩

/-- The distinct sequence keys currently pending. -/
def keys (b : ReorderFillBuffer) : List Nat :=
  b.buffer.map Prod.fst

end ReorderFillBuffer

/-- Look up the frame list pending at a key. -/
def lookupKey : PendingSet → Nat → Option (List RawTBFFrame)
  | [], _ => none
  | (k', fs) :: rest, k => if k' = k then some fs else lookupKey rest k

/-- The frames pending at a key (empty when the key is absent). -/
def framesAt (b : ReorderFillBuffer) (k : Nat) : List RawTBFFrame :=
  (lookupKey b.buffer k).getD []

/-- Replace the frame list at a key (first matching entry). -/
def updateKey : PendingSet → Nat → List RawTBFFrame → PendingSet
  | [], _, _ => []
  | (k', fs') :: rest, k, fs =>
    if k' = k then (k', fs) :: rest else (k', fs') :: updateKey rest k fs

/-- Remove every entry for a key. -/
def eraseKey (p : PendingSet) (k : Nat) : PendingSet :=
  p.filter (fun e => e.1 ≠ k)

/-- The smallest pending sequence key, if any. -/
def smallestKey : PendingSet → Option Nat
  | [] => none
  | (k, _) :: rest =>
    some (match smallestKey rest with
          | none => k
          | some m => min k m)

/-- Modelled from the spec (4.1.2 step 2): synthesize fill frames for every
configured channel missing from the frames pending at the evicted key, in
channel-configuration order, using the source's `createFill`; fail if any
fill cannot be synthesized. -/
def fillsFor (fs : List RawTBFFrame) : List Nat → Option (List RawTBFFrame)
  | [] => some []
  | c :: cs =>
    if fs.any (fun g => g.first_chan == c) then fillsFor fs cs
    else
      match createFill fs c, fillsFor fs cs with
      | some fl, some rest => some (fl :: rest)
      | _, _ => none

/-- Modelled from the spec (4.1.2, eviction / flush-or-fill): take the
smallest pending key, synthesize fills for its missing channels, remove it
from pending state, and emit the real frames (arrival order) followed by
the fills.  Returns `none` when nothing is pending or a fill cannot be
synthesized (the latter never happens for a reachable state, see
`evictSmallest_isSome`). -/
def evictSmallest (b : ReorderFillBuffer) :
    Option ((Nat × List RawTBFFrame) × ReorderFillBuffer) :=
  match smallestKey b.buffer with
  | none => none
  | some k =>
    let fs := framesAt b k
    match fillsFor fs b.chans with
    | none => none
    | some fills =>
      some ((k, fs ++ fills), { b with buffer := eraseKey b.buffer k })

/-- The state after recording a frame under a fresh sequence key. -/
def rawAdd (b : ReorderFillBuffer) (f : RawTBFFrame) : ReorderFillBuffer :=
  { b with buffer := b.buffer ++ [(f.timetag, [f])] }

/-- Modelled from the spec (4.1, `insert`): drop the frame if its channel
is not configured or if a frame for the same `(sequence_key, channel_id)`
pair is already recorded; otherwise record it under its sequence key
(`timetag`), and if that pushes the number of distinct pending keys above
`nsegments`, evict the smallest pending key before returning.  The second
component is the frame set emitted by such an eviction, if any. -/
def insertFrame (b : ReorderFillBuffer) (f : RawTBFFrame) :
    ReorderFillBuffer × Option (Nat × List RawTBFFrame) :=
  if f.first_chan ∈ b.chans then
    let k := f.timetag
    match lookupKey b.buffer k with
    | some fs =>
      if fs.any (fun g => g.first_chan == f.first_chan) then (b, none)
      else ({ b with buffer := updateKey b.buffer k (fs ++ [f]) }, none)
    | none =>
      let b' := rawAdd b f
      if b'.buffer.length > b.nsegments then
        match evictSmallest b' with
        | some (out, b'') => (b'', some out)
        | none => (b', none)
      else (b', none)
  else (b, none)

/-- Insert a sequence of frames left to right, collecting every frame set
emitted by forced evictions in order. -/
def runInserts (b : ReorderFillBuffer) (frames : List RawTBFFrame) :
    ReorderFillBuffer × List (Nat × List RawTBFFrame) :=
  frames.foldl
    (fun acc f =>
      let step := insertFrame acc.1 f
      (step.1, acc.2 ++ step.2.toList))
    (b, [])

/-- Modelled from the spec (4.1, `pop_complete`): return and remove the
frame set for the smallest pending key if and only if every configured
channel has a frame there; otherwise return nothing and leave the state
unchanged. -/
def pop_complete (b : ReorderFillBuffer) :
    Option ((Nat × List RawTBFFrame) × ReorderFillBuffer) :=
  match smallestKey b.buffer with
  | none => none
  | some k =>
    let fs := framesAt b k
    if b.chans.all (fun c => fs.any (fun g => g.first_chan == c)) then
      some ((k, fs), { b with buffer := eraseKey b.buffer k })
    else none

/-- Helper for `drain`: evict at most `fuel` times. -/
def drainAux : Nat → ReorderFillBuffer →
    List (Nat × List RawTBFFrame) × ReorderFillBuffer
  | 0, b => ([], b)
  | fuel + 1, b =>
    match evictSmallest b with
    | none => ([], b)
    | some (out, b') =>
      let rest := drainAux fuel b'
      (out :: rest.1, rest.2)

/-- Modelled from the spec (4.1, `drain`): repeatedly evict the smallest
pending key until none remain, returning the emitted `(key, frame set)`
pairs in emission order together with the final state. -/
def drain (b : ReorderFillBuffer) :
    List (Nat × List RawTBFFrame) × ReorderFillBuffer :=
  drainAux b.buffer.length b

/-- Modelled from the spec (4.1.2 step 2, the reading under test in C1):
synthesize a fill frame by cloning a per-channel template frame and
rewriting its sequence-key bytes (16–23, big endian) to the evicted key and
its channel bytes (12–13) to the channel, zeroing the payload.  The source
has no per-channel template; this definition exists to compare the spec's
words against the source behaviour. -/
def specFill (template : RawTBFFrame) (k : Nat) (chan : Nat) : RawTBFFrame :=
  let c := template.contents
  let c := c.set 16 ((k >>> 56) % 256)
  let c := c.set 17 ((k >>> 48) % 256)
  let c := c.set 18 ((k >>> 40) % 256)
  let c := c.set 19 ((k >>> 32) % 256)
  let c := c.set 20 ((k >>> 24) % 256)
  let c := c.set 21 ((k >>> 16) % 256)
  let c := c.set 22 ((k >>> 8) % 256)
  let c := c.set 23 (k % 256)
  let c := c.set 12 ((chan &&& 0xFF00) >>> 8)
  let c := c.set 13 (chan &&& 0x00FF)
  let c := c.take 24 ++ List.replicate PAYLOAD_SIZE 0
  ⟨c⟩

/-! ## Well-formedness

Reachable buffer states satisfy `WF`: pending keys are distinct, the
number of pending keys respects the window depth, and every pending entry
is a nonempty list of frames whose timetag is the entry's key, whose
channel is configured, with distinct channels inside one entry. -/

def WF (b : ReorderFillBuffer) : Prop :=
  b.keys.Nodup ∧
  b.buffer.length ≤ b.nsegments ∧
  ∀ e ∈ b.buffer, e.2 ≠ [] ∧
    (∀ f ∈ e.2, f.timetag = e.1 ∧ f.first_chan ∈ b.chans) ∧
    (e.2.map RawTBFFrame.first_chan).Nodup

instance (b : ReorderFillBuffer) : Decidable (WF b) := by
  unfold WF; infer_instance

/-! ### Association-list helper lemmas -/

theorem smallestKey_eq_none {p : PendingSet} : smallestKey p = none ↔ p = [] := by
  cases p <;> simp [smallestKey]

theorem smallestKey_mem {p : PendingSet} {k : Nat} (h : smallestKey p = some k) :
    k ∈ p.map Prod.fst := by
  induction p with
  | nil => simp [smallestKey] at h
  | cons e rest ih =>
    simp only [smallestKey] at h
    cases hr : smallestKey rest with
    | none =>
      rw [hr] at h
      simp at h
      simp [← h]
    | some m =>
      rw [hr] at h
      simp at h
      rcases Nat.le_total e.1 m with hle | hle
      · rw [min_eq_left hle] at h
        simp [← h]
      · rw [min_eq_right hle] at h
        subst h
        simp [ih hr]

theorem smallestKey_le {p : PendingSet} {k : Nat} (h : smallestKey p = some k) :
    ∀ k' ∈ p.map Prod.fst, k ≤ k' := by
  induction p generalizing k with
  | nil => simp
  | cons e rest ih =>
    simp only [smallestKey] at h
    intro k' hk'
    simp only [List.map_cons, List.mem_cons] at hk'
    cases hr : smallestKey rest with
    | none =>
      rw [hr] at h
      simp at h
      rcases hk' with hk' | hk'
      · omega
      · exact absurd hk' (by simp [smallestKey_eq_none.mp hr])
    | some m =>
      rw [hr] at h
      simp at h
      rcases hk' with hk' | hk'
      · subst hk'; omega
      · have := ih hr k' hk'
        omega


theorem lookupKey_eq_none {p : PendingSet} {k : Nat} :
    lookupKey p k = none ↔ k ∉ p.map Prod.fst := by
  induction p with
  | nil => simp [lookupKey]
  | cons e rest ih =>
    simp only [lookupKey, List.map_cons, List.mem_cons]
    split_ifs with he
    · simp [he]
    · rw [ih]
      have hne : ¬ (k = e.1) := fun h => he h.symm
      simp [hne]

theorem lookupKey_some_mem {p : PendingSet} {k : Nat} {fs : List RawTBFFrame}
    (h : lookupKey p k = some fs) : (k, fs) ∈ p := by
  induction p with
  | nil => simp [lookupKey] at h
  | cons e rest ih =>
    simp only [lookupKey] at h
    split_ifs at h with he
    · cases h
      simp [← he]
    · simp [ih h]

theorem lookupKey_isSome {p : PendingSet} {k : Nat} :
    (lookupKey p k).isSome ↔ k ∈ p.map Prod.fst := by
  induction p with
  | nil => simp [lookupKey]
  | cons e rest ih =>
    simp only [lookupKey, List.map_cons, List.mem_cons]
    split_ifs with he
    · simp [he]
    · rw [ih]
      have hne : ¬ (k = e.1) := fun h => he h.symm
      simp [hne]

theorem keys_eraseKey (p : PendingSet) (k : Nat) :
    (eraseKey p k).map Prod.fst = (p.map Prod.fst).filter (· ≠ k) := by
  induction p with
  | nil => rfl
  | cons e rest ih =>
    simp only [eraseKey, List.filter] at ih ⊢
    cases hd : decide (e.1 ≠ k) <;> simp_all

theorem mem_eraseKey {p : PendingSet} {k : Nat} {e : Nat × List RawTBFFrame} :
    e ∈ eraseKey p k ↔ e ∈ p ∧ e.1 ≠ k := by
  simp [eraseKey, List.mem_filter]

theorem length_eraseKey_of_mem {p : PendingSet} {k : Nat}
    (hmem : k ∈ p.map Prod.fst) (hnd : (p.map Prod.fst).Nodup) :
    (eraseKey p k).length + 1 = p.length := by
  induction p with
  | nil => simp at hmem
  | cons e rest ih =>
    simp only [List.map_cons, List.mem_cons] at hmem
    simp only [List.map_cons, List.nodup_cons] at hnd
    rcases hmem with hk | hk
    · have : eraseKey (e :: rest) k = eraseKey rest k := by
        simp [eraseKey, List.filter, hk]
      rw [this]
      have : eraseKey rest k = rest := by
        apply List.filter_eq_self.mpr
        intro a ha
        have hmem' : a.1 ∈ rest.map Prod.fst := List.mem_map_of_mem Prod.fst ha
        simp only [decide_eq_true_eq]
        intro hak
        exact hnd.1 (by rw [← hk, ← hak]; exact hmem')
      rw [this]
      simp
    · have hek : e.1 ≠ k := by
        intro he
        exact hnd.1 (he ▸ hk)
      have : eraseKey (e :: rest) k = e :: eraseKey rest k := by
        simp [eraseKey, List.filter, hek]
      rw [this]
      simp only [List.length_cons]
      rw [ih hk hnd.2]

theorem keys_updateKey (p : PendingSet) (k : Nat) (fs : List RawTBFFrame) :
    (updateKey p k fs).map Prod.fst = p.map Prod.fst := by
  induction p with
  | nil => rfl
  | cons e rest ih =>
    simp only [updateKey]
    split_ifs with he
    · simp [he]
    · simp [ih]

theorem mem_updateKey {p : PendingSet} {k : Nat} {fs : List RawTBFFrame}
    {e : Nat × List RawTBFFrame} (h : e ∈ updateKey p k fs) :
    e ∈ p ∨ e = (k, fs) := by
  induction p with
  | nil => simp [updateKey] at h
  | cons a rest ih =>
    simp only [updateKey] at h
    split_ifs at h with ha
    · rcases List.mem_cons.mp h with h | h
      · right; rw [h, ha]
      · left; exact List.mem_cons_of_mem a h
    · rcases List.mem_cons.mp h with h | h
      · left; simp [h]
      · rcases ih h with h | h
        · left; exact List.mem_cons_of_mem a h
        · right; exact h

/-! ### Eviction lemmas -/

theorem fillsFor_isSome {fs : List RawTBFFrame} (hne : fs ≠ []) (cs : List Nat) :
    (fillsFor fs cs).isSome := by
  induction cs with
  | nil => simp [fillsFor]
  | cons c cs ih =>
    simp only [fillsFor]
    split_ifs with hc
    · exact ih
    · obtain ⟨t, rest, rfl⟩ : ∃ t rest, fs = t :: rest := by
        cases fs with
        | nil => simp at hne
        | cons t r => exact ⟨t, r, rfl⟩
      obtain ⟨fills, hfills⟩ := Option.isSome_iff_exists.mp ih
      simp [createFill, hfills]

theorem fillsFor_mem {fs : List RawTBFFrame} {cs : List Nat}
    {fills : List RawTBFFrame} (h : fillsFor fs cs = some fills) {c : Nat}
    (hc : c ∈ cs) (hmiss : fs.any (fun g => g.first_chan == c) = false) :
    ∃ fl, createFill fs c = some fl ∧ fl ∈ fills := by
  induction cs generalizing fills with
  | nil => simp at hc
  | cons c' cs ih =>
    simp only [fillsFor] at h
    rcases List.mem_cons.mp hc with rfl | hc'
    · rw [hmiss] at h
      simp only [Bool.false_eq_true, if_false] at h
      cases hcf : createFill fs c with
      | none => rw [hcf] at h; simp at h
      | some fl =>
        rw [hcf] at h
        cases hff : fillsFor fs cs with
        | none => rw [hff] at h; simp at h
        | some rest =>
          rw [hff] at h
          simp only [Option.some.injEq] at h
          exact ⟨fl, rfl, by rw [← h]; exact List.mem_cons_self fl rest⟩
    · split_ifs at h with hc1
      · exact ih h hc'
      · cases hcf : createFill fs c' with
        | none => rw [hcf] at h; simp at h
        | some fl =>
          rw [hcf] at h
          cases hff : fillsFor fs cs with
          | none => rw [hff] at h; simp at h
          | some rest =>
            rw [hff] at h
            simp only [Option.some.injEq] at h
            obtain ⟨fl', hfl', hmem⟩ := ih hff hc'
            exact ⟨fl', hfl', by rw [← h]; exact List.mem_cons_of_mem fl hmem⟩

theorem framesAt_of_lookup {b : ReorderFillBuffer} {k : Nat}
    {fs : List RawTBFFrame} (h : lookupKey b.buffer k = some fs) :
    framesAt b k = fs := by
  simp [framesAt, h]

theorem evictSmallest_eq_some {b : ReorderFillBuffer} {k : Nat}
    {out : List RawTBFFrame} {b' : ReorderFillBuffer}
    (h : evictSmallest b = some ((k, out), b')) :
    smallestKey b.buffer = some k ∧
    b'.buffer = eraseKey b.buffer k ∧
    b'.chans = b.chans ∧ b'.nsegments = b.nsegments ∧
    ∃ fills, fillsFor (framesAt b k) b.chans = some fills ∧
      out = framesAt b k ++ fills := by
  unfold evictSmallest at h
  cases hs : smallestKey b.buffer with
  | none => rw [hs] at h; simp at h
  | some k0 =>
    rw [hs] at h
    simp only at h
    cases hf : fillsFor (framesAt b k0) b.chans with
    | none => rw [hf] at h; simp at h
    | some fills =>
      rw [hf] at h
      simp only [Option.some.injEq, Prod.mk.injEq] at h
      obtain ⟨⟨hk, hout⟩, hb⟩ := h
      subst hk
      subst hb
      exact ⟨rfl, rfl, rfl, rfl, fills, hf, hout.symm⟩

theorem evictSmallest_isSome {b : ReorderFillBuffer}
    (hne : b.buffer ≠ []) (hent : ∀ e ∈ b.buffer, e.2 ≠ []) :
    (evictSmallest b).isSome := by
  cases hs : smallestKey b.buffer with
  | none => exact absurd (smallestKey_eq_none.mp hs) hne
  | some k =>
    have hkmem := smallestKey_mem hs
    obtain ⟨fs, hfs⟩ := Option.isSome_iff_exists.mp (lookupKey_isSome.mpr hkmem)
    have hmem := lookupKey_some_mem hfs
    have hfsne : fs ≠ [] := hent _ hmem
    obtain ⟨fills, hfills⟩ := Option.isSome_iff_exists.mp (fillsFor_isSome hfsne b.chans)
    simp only [evictSmallest, hs]
    rw [framesAt_of_lookup hfs, hfills]
    simp

theorem evictSmallest_WF {b : ReorderFillBuffer} {k : Nat}
    {out : List RawTBFFrame} {b' : ReorderFillBuffer}
    (hW : WF b) (h : evictSmallest b = some ((k, out), b')) : WF b' := by
  obtain ⟨hs, hb, hch, hns, _⟩ := evictSmallest_eq_some h
  obtain ⟨hnd, hlen, hent⟩ := hW
  refine ⟨?_, ?_, ?_⟩
  · show (b'.buffer.map Prod.fst).Nodup
    rw [hb, keys_eraseKey]
    exact hnd.filter _
  · rw [hb, hns]
    exact le_trans (List.length_filter_le _ _) hlen
  · intro e he
    rw [hb] at he
    obtain ⟨hmem, _⟩ := mem_eraseKey.mp he
    obtain ⟨h1, h2, h3⟩ := hent e hmem
    exact ⟨h1, fun f hf => ⟨(h2 f hf).1, by rw [hch]; exact (h2 f hf).2⟩, h3⟩

/-! ### Insertion lemmas -/

/-- Exhaustive case analysis of one `insertFrame` step. -/
theorem insertFrame_cases (b : ReorderFillBuffer) (f : RawTBFFrame) :
    (f.first_chan ∉ b.chans ∧ insertFrame b f = (b, none)) ∨
    (∃ fs, f.first_chan ∈ b.chans ∧ lookupKey b.buffer f.timetag = some fs ∧
      fs.any (fun g => g.first_chan == f.first_chan) = true ∧
      insertFrame b f = (b, none)) ∨
    (∃ fs, f.first_chan ∈ b.chans ∧ lookupKey b.buffer f.timetag = some fs ∧
      fs.any (fun g => g.first_chan == f.first_chan) = false ∧
      insertFrame b f =
        ({ b with buffer := updateKey b.buffer f.timetag (fs ++ [f]) }, none)) ∨
    (f.first_chan ∈ b.chans ∧ lookupKey b.buffer f.timetag = none ∧
      b.buffer.length + 1 ≤ b.nsegments ∧
      insertFrame b f = (rawAdd b f, none)) ∨
    (∃ out b'', f.first_chan ∈ b.chans ∧ lookupKey b.buffer f.timetag = none ∧
      b.buffer.length + 1 > b.nsegments ∧
      evictSmallest (rawAdd b f) = some (out, b'') ∧
      insertFrame b f = (b'', some out)) ∨
    (f.first_chan ∈ b.chans ∧ lookupKey b.buffer f.timetag = none ∧
      b.buffer.length + 1 > b.nsegments ∧
      evictSmallest (rawAdd b f) = none ∧
      insertFrame b f = (rawAdd b f, none)) := by
  unfold insertFrame
  split_ifs with hchan
  · cases hlk : lookupKey b.buffer f.timetag with
    | some fs =>
      simp only [hlk]
      cases hdup : fs.any (fun g => g.first_chan == f.first_chan) with
      | true =>
        right; left
        exact ⟨fs, hchan, rfl, hdup, by simp [hdup]⟩
      | false =>
        right; right; left
        exact ⟨fs, hchan, rfl, hdup, by simp [hdup]⟩
    | none =>
      simp only [hlk]
      by_cases hover : (rawAdd b f).buffer.length > b.nsegments
      · have hover' : b.buffer.length + 1 > b.nsegments := by
          simpa [rawAdd] using hover
        cases hev : evictSmallest (rawAdd b f) with
        | some ob =>
          obtain ⟨out, b''⟩ := ob
          right; right; right; right; left
          refine ⟨out, b'', hchan, trivial, hover', rfl, ?_⟩
          rw [if_pos hover]
        | none =>
          right; right; right; right; right
          refine ⟨hchan, trivial, hover', rfl, ?_⟩
          rw [if_pos hover]
      · have hover' : b.buffer.length + 1 ≤ b.nsegments := by
          simp only [rawAdd, List.length_append, List.length_cons,
            List.length_nil, gt_iff_lt, not_lt] at hover
          simpa using hover
        right; right; right; left
        exact ⟨hchan, trivial, hover', by rw [if_neg hover]⟩
  · left
    exact ⟨hchan, rfl⟩

theorem length_updateKey (p : PendingSet) (k : Nat) (fs : List RawTBFFrame) :
    (updateKey p k fs).length = p.length := by
  have := congrArg List.length (keys_updateKey p k fs)
  simpa using this

theorem any_chan_eq_false {fs : List RawTBFFrame} {c : Nat} :
    (fs.any fun g => g.first_chan == c) = false ↔ ∀ g ∈ fs, g.first_chan ≠ c := by
  rw [← Bool.not_eq_true, List.any_eq_true]
  simp

theorem keys_rawAdd (b : ReorderFillBuffer) (f : RawTBFFrame) :
    (rawAdd b f).keys = b.keys ++ [f.timetag] := by
  simp [rawAdd, ReorderFillBuffer.keys]

theorem keys_rawAdd_nodup {b : ReorderFillBuffer} {f : RawTBFFrame}
    (hnd : b.keys.Nodup) (hlk : lookupKey b.buffer f.timetag = none) :
    (rawAdd b f).keys.Nodup := by
  rw [keys_rawAdd]
  have hnot : f.timetag ∉ b.keys := lookupKey_eq_none.mp hlk
  simp only [List.nodup_append, List.nodup_cons, List.not_mem_nil,
    not_false_iff, List.nodup_nil, and_true, true_and]
  exact ⟨hnd, fun a ha => by simp; intro h; rw [h] at ha; exact hnot ha⟩

theorem rawAdd_entries {b : ReorderFillBuffer} {f : RawTBFFrame}
    (hchan : f.first_chan ∈ b.chans)
    (hent : ∀ e ∈ b.buffer, e.2 ≠ [] ∧
      (∀ g ∈ e.2, g.timetag = e.1 ∧ g.first_chan ∈ b.chans) ∧
      (e.2.map RawTBFFrame.first_chan).Nodup) :
    ∀ e ∈ (rawAdd b f).buffer, e.2 ≠ [] ∧
      (∀ g ∈ e.2, g.timetag = e.1 ∧ g.first_chan ∈ (rawAdd b f).chans) ∧
      (e.2.map RawTBFFrame.first_chan).Nodup := by
  intro e he
  simp only [rawAdd, List.mem_append, List.mem_singleton] at he
  rcases he with he | rfl
  · exact hent e he
  · refine ⟨by simp, ?_, by simp⟩
    intro g hg
    simp only [List.mem_singleton] at hg
    subst hg
    exact ⟨rfl, hchan⟩

theorem insertFrame_WF (b : ReorderFillBuffer) (f : RawTBFFrame) (hW : WF b) :
    WF (insertFrame b f).1 := by
  obtain ⟨hnd, hlen, hent⟩ := hW
  rcases insertFrame_cases b f with ⟨_, heq⟩ | ⟨fs, hchan, hlk, hdup, heq⟩ |
    ⟨fs, hchan, hlk, hdup, heq⟩ | ⟨hchan, hlk, hsz, heq⟩ |
    ⟨out, b'', hchan, hlk, hsz, hev, heq⟩ | ⟨hchan, hlk, hsz, hev, heq⟩
  · rw [heq]; exact ⟨hnd, hlen, hent⟩
  · rw [heq]; exact ⟨hnd, hlen, hent⟩
  · rw [heq]
    have hfsmem := lookupKey_some_mem hlk
    obtain ⟨_, hfr, hfc⟩ := hent _ hfsmem
    refine ⟨?_, ?_, ?_⟩
    · show ((updateKey b.buffer f.timetag (fs ++ [f])).map Prod.fst).Nodup
      rw [keys_updateKey]; exact hnd
    · show (updateKey b.buffer f.timetag (fs ++ [f])).length ≤ b.nsegments
      rw [length_updateKey]; exact hlen
    · intro e he
      rcases mem_updateKey he with he | rfl
      · exact hent e he
      · refine ⟨by simp, ?_, ?_⟩
        · intro g hg
          rcases List.mem_append.mp hg with hg | hg
          · exact hfr g hg
          · simp only [List.mem_singleton] at hg
            subst hg
            exact ⟨rfl, hchan⟩
        · rw [List.map_append]
          simp only [List.map_cons, List.map_nil]
          have hnotin : f.first_chan ∉ fs.map RawTBFFrame.first_chan := by
            intro hmem
            obtain ⟨g, hg, hgc⟩ := List.mem_map.mp hmem
            exact (any_chan_eq_false.mp hdup g hg) hgc
          simp [List.nodup_append, hfc, hnotin]
  · rw [heq]
    refine ⟨keys_rawAdd_nodup hnd hlk, ?_, rawAdd_entries hchan hent⟩
    show (b.buffer ++ [(f.timetag, [f])]).length ≤ b.nsegments
    simpa using hsz
  · rw [heq]
    obtain ⟨hs, hb, hch, hns, _⟩ := evictSmallest_eq_some hev
    obtain ⟨k', hk'⟩ : ∃ k', smallestKey (rawAdd b f).buffer = some k' := ⟨_, hs⟩
    have hnd' : (rawAdd b f).keys.Nodup := keys_rawAdd_nodup hnd hlk
    refine ⟨?_, ?_, ?_⟩
    · show (b''.buffer.map Prod.fst).Nodup
      rw [hb, keys_eraseKey]
      exact hnd'.filter _
    · rw [hb, hns]
      have hmem : out.1 ∈ (rawAdd b f).buffer.map Prod.fst := by
        have := smallestKey_mem hs
        exact this
      have := length_eraseKey_of_mem hmem hnd'
      have hraw : (rawAdd b f).buffer.length = b.buffer.length + 1 := by
        simp [rawAdd]
      simp only [rawAdd] at this hraw ⊢
      omega
    · intro e he
      rw [hb] at he
      obtain ⟨hmem, _⟩ := mem_eraseKey.mp he
      obtain ⟨h1, h2, h3⟩ := rawAdd_entries hchan hent e hmem
      refine ⟨h1, fun g hg => ⟨(h2 g hg).1, ?_⟩, h3⟩
      rw [hch]
      exact (h2 g hg).2
  · exfalso
    have hne : (rawAdd b f).buffer ≠ [] := by simp [rawAdd]
    have hent' : ∀ e ∈ (rawAdd b f).buffer, e.2 ≠ [] :=
      fun e he => (rawAdd_entries hchan hent e he).1
    have := evictSmallest_isSome hne hent'
    rw [hev] at this
    simp at this

/-! ## Claim theorems for the buffer -/

/-- C4: after an insertion into a well-formed buffer the number of distinct
pending keys is at most the window depth; an eviction is emitted exactly
when the inserted frame opened a fresh key while the buffer already held
`nsegments` keys, and the emitted key is the smallest key pending after the
raw addition, exactly that key being erased. -/
theorem insert_window_bound (b : ReorderFillBuffer) (f : RawTBFFrame) (hW : WF b) :
    (insertFrame b f).1.buffer.length ≤ b.nsegments ∧
    (∀ k out, (insertFrame b f).2 = some (k, out) →
      b.buffer.length = b.nsegments ∧
      f.timetag ∉ b.keys ∧
      k ∈ (rawAdd b f).keys ∧ (∀ k' ∈ (rawAdd b f).keys, k ≤ k') ∧
      (insertFrame b f).1.buffer = eraseKey (rawAdd b f).buffer k) ∧
    ((f.first_chan ∈ b.chans ∧ f.timetag ∉ b.keys ∧
        b.buffer.length = b.nsegments ∧ 0 < b.nsegments) →
      ((insertFrame b f).2).isSome) := by
  obtain ⟨hnd, hlen, hent⟩ := hW
  rcases insertFrame_cases b f with ⟨hchan, heq⟩ | ⟨fs, hchan, hlk, hdup, heq⟩ |
    ⟨fs, hchan, hlk, hdup, heq⟩ | ⟨hchan, hlk, hsz, heq⟩ |
    ⟨out, b'', hchan, hlk, hsz, hev, heq⟩ | ⟨hchan, hlk, hsz, hev, heq⟩
  · rw [heq]
    exact ⟨hlen, by simp, fun h => absurd h.1 hchan⟩
  · rw [heq]
    exact ⟨hlen, by simp,
      fun h => absurd (lookupKey_isSome.mp (by simp [hlk])) h.2.1⟩
  · rw [heq]
    refine ⟨?_, by simp,
      fun h => absurd (lookupKey_isSome.mp (by simp [hlk])) h.2.1⟩
    show (updateKey b.buffer f.timetag (fs ++ [f])).length ≤ b.nsegments
    rw [length_updateKey]; exact hlen
  · rw [heq]
    refine ⟨by simpa [rawAdd] using hsz, by simp, ?_⟩
    rintro ⟨_, _, hfull, _⟩
    exact absurd hfull (by omega)
  · have hnd' : (rawAdd b f).keys.Nodup := keys_rawAdd_nodup hnd hlk
    obtain ⟨hs, hb, hch, hns, _⟩ := @evictSmallest_eq_some (rawAdd b f)
      out.1 out.2 b'' (by rw [hev])
    rw [heq]
    refine ⟨?_, ?_, by simp⟩
    · have hmem : out.1 ∈ (rawAdd b f).buffer.map Prod.fst := smallestKey_mem hs
      have hcount := length_eraseKey_of_mem hmem hnd'
      have hraw : (rawAdd b f).buffer.length = b.buffer.length + 1 := by simp [rawAdd]
      simp only [hb]
      omega
    · intro k out' hout
      simp only [Option.some.injEq] at hout
      have hk : out.1 = k := by rw [hout]
      refine ⟨by omega, lookupKey_eq_none.mp hlk, ?_, ?_, ?_⟩
      · rw [← hk]; exact smallestKey_mem hs
      · intro k' hk'
        rw [← hk]
        exact smallestKey_le hs k' hk'
      · rw [hb, hk]
  · exfalso
    have hne : (rawAdd b f).buffer ≠ [] := by simp [rawAdd]
    have hent' : ∀ e ∈ (rawAdd b f).buffer, e.2 ≠ [] :=
      fun e he => (rawAdd_entries hchan hent e he).1
    have := evictSmallest_isSome hne hent'
    rw [hev] at this
    simp at this

/-- A compact 24-byte test frame with a valid sync word, marker byte 5,
channel bytes 12–13 and low timetag byte 23. -/
def tframe (key chan mark : Nat) : RawTBFFrame :=
  ⟨[0xDE, 0xC0, 0xDE, 0x5C, 0, mark, 0, 0, 0, 0, 0, 0,
    (chan &&& 0xFF00) >>> 8, chan &&& 0xFF, 0, 0,
    0, 0, 0, 0, 0, 0, 0, key]⟩

/-- Witness for C4: a full one-segment buffer receives a frame with a fresh
key; the conclusion is obtained by applying `insert_window_bound` at this
concrete state. -/
theorem insert_window_bound_witness :
    (insertFrame ⟨[10], 1, [(1, [tframe 1 10 0])]⟩ (tframe 2 10 0)).1.buffer.length ≤ 1 ∧
    (∀ k out,
      (insertFrame ⟨[10], 1, [(1, [tframe 1 10 0])]⟩ (tframe 2 10 0)).2 = some (k, out) →
      [(1, [tframe 1 10 0])].length = 1 ∧
      (tframe 2 10 0).timetag ∉ (⟨[10], 1, [(1, [tframe 1 10 0])]⟩ : ReorderFillBuffer).keys ∧
      k ∈ (rawAdd ⟨[10], 1, [(1, [tframe 1 10 0])]⟩ (tframe 2 10 0)).keys ∧
      (∀ k' ∈ (rawAdd ⟨[10], 1, [(1, [tframe 1 10 0])]⟩ (tframe 2 10 0)).keys, k ≤ k') ∧
      (insertFrame ⟨[10], 1, [(1, [tframe 1 10 0])]⟩ (tframe 2 10 0)).1.buffer =
        eraseKey (rawAdd ⟨[10], 1, [(1, [tframe 1 10 0])]⟩ (tframe 2 10 0)).buffer k) ∧
    (((tframe 2 10 0).first_chan ∈ [10] ∧
        (tframe 2 10 0).timetag ∉ (⟨[10], 1, [(1, [tframe 1 10 0])]⟩ : ReorderFillBuffer).keys ∧
        [(1, [tframe 1 10 0])].length = 1 ∧ 0 < 1) →
      ((insertFrame ⟨[10], 1, [(1, [tframe 1 10 0])]⟩ (tframe 2 10 0)).2).isSome) :=
  insert_window_bound ⟨[10], 1, [(1, [tframe 1 10 0])]⟩ (tframe 2 10 0) (by decide)

/-! ### Duplicate-insertion lemmas -/

theorem lookupKey_updateKey_self {p : PendingSet} {k : Nat}
    (hmem : k ∈ p.map Prod.fst) (v : List RawTBFFrame) :
    lookupKey (updateKey p k v) k = some v := by
  induction p with
  | nil => simp at hmem
  | cons e rest ih =>
    simp only [List.map_cons, List.mem_cons] at hmem
    simp only [updateKey]
    split_ifs with he
    · simp [lookupKey, he]
    · rcases hmem with hk | hk
      · exact absurd hk.symm he
      · simp only [lookupKey]
        rw [if_neg he]
        exact ih hk

theorem lookupKey_append_singleton {p : PendingSet} {k : Nat}
    (hnone : lookupKey p k = none) (v : List RawTBFFrame) :
    lookupKey (p ++ [(k, v)]) k = some v := by
  induction p with
  | nil => simp [lookupKey]
  | cons e rest ih =>
    simp only [List.cons_append, lookupKey] at hnone ⊢
    by_cases he : e.1 = k
    · rw [if_pos he] at hnone
      exact absurd hnone (by simp)
    · rw [if_neg he] at hnone
      rw [if_neg he]
      exact ih hnone

theorem eraseKey_append_singleton_self (p : PendingSet) (k : Nat)
    (v : List RawTBFFrame) :
    eraseKey (p ++ [(k, v)]) k = eraseKey p k := by
  simp [eraseKey, List.filter_append]

theorem eraseKey_append_singleton_ne {m k : Nat} (hne : m ≠ k)
    (p : PendingSet) (v : List RawTBFFrame) :
    eraseKey (p ++ [(k, v)]) m = eraseKey p m ++ [(k, v)] := by
  have h2 : k ≠ m := Ne.symm hne
  simp [eraseKey, List.filter_append, h2]

theorem eraseKey_eq_self_of_not_mem {p : PendingSet} {k : Nat}
    (hnot : k ∉ p.map Prod.fst) : eraseKey p k = p := by
  apply List.filter_eq_self.mpr
  intro e he
  simp only [decide_eq_true_eq]
  intro hek
  exact hnot (hek ▸ List.mem_map_of_mem Prod.fst he)

theorem any_chan_append_self (fs : List RawTBFFrame) (f : RawTBFFrame) :
    ((fs ++ [f]).any fun g => g.first_chan == f.first_chan) = true := by
  simp

/-- A duplicate `(sequence_key, channel_id)` frame is dropped: state and
output are untouched. -/
theorem insertFrame_of_dup {b : ReorderFillBuffer} {f : RawTBFFrame}
    (hchan : f.first_chan ∈ b.chans) {fs : List RawTBFFrame}
    (hlk : lookupKey b.buffer f.timetag = some fs)
    (hf : fs.any (fun g => g.first_chan == f.first_chan) = true) :
    insertFrame b f = (b, none) := by
  unfold insertFrame
  rw [if_pos hchan]
  simp [hlk, hf]

/-- C6: inserting the same `(sequence_key, channel_id)` frame twice leaves
exactly the state of inserting it once; the duplicate is absorbed, and the
insert operation is total (it returns no error for the duplicate). -/
theorem insert_idempotent (b : ReorderFillBuffer) (f : RawTBFFrame) (hW : WF b) :
    (insertFrame (insertFrame b f).1 f).1 = (insertFrame b f).1 := by
  obtain ⟨hnd, hlen, hent⟩ := hW
  rcases insertFrame_cases b f with ⟨hchan, heq⟩ | ⟨fs, hchan, hlk, hdup, heq⟩ |
    ⟨fs, hchan, hlk, hdup, heq⟩ | ⟨hchan, hlk, hsz, heq⟩ |
    ⟨out, b'', hchan, hlk, hsz, hev, heq⟩ | ⟨hchan, hlk, hsz, hev, heq⟩
  · rw [heq, heq]
  · rw [heq, heq]
  · rw [heq]
    have hmem : f.timetag ∈ b.buffer.map Prod.fst :=
      lookupKey_isSome.mp (by simp [hlk])
    have hlk2 : lookupKey (updateKey b.buffer f.timetag (fs ++ [f])) f.timetag
        = some (fs ++ [f]) := lookupKey_updateKey_self hmem _
    have hstep := insertFrame_of_dup
      (b := { b with buffer := updateKey b.buffer f.timetag (fs ++ [f]) })
      (f := f) hchan hlk2 (any_chan_append_self fs f)
    rw [hstep]
  · rw [heq]
    have hlk2 : lookupKey (rawAdd b f).buffer f.timetag = some [f] :=
      lookupKey_append_singleton hlk [f]
    have hstep := insertFrame_of_dup (b := rawAdd b f) (f := f) hchan hlk2 (by simp)
    rw [hstep]
  · obtain ⟨hs, hb, hch, hns, _⟩ := @evictSmallest_eq_some (rawAdd b f)
      out.1 out.2 b'' (by rw [hev])
    rw [heq]
    by_cases hm : out.1 = f.timetag
    · have hbb : b''.buffer = b.buffer := by
        rw [hb, hm]
        rw [show (rawAdd b f).buffer = b.buffer ++ [(f.timetag, [f])] from rfl]
        rw [eraseKey_append_singleton_self]
        exact eraseKey_eq_self_of_not_mem (lookupKey_eq_none.mp hlk)
      have h1 : b''.chans = b.chans := by rw [hch]; rfl
      have h2 : b''.nsegments = b.nsegments := by rw [hns]; rfl
      have hbeq : b'' = b := by
        cases b''
        cases b
        simp_all
      rw [hbeq, heq]
      exact hbeq
    · have hlkerase : lookupKey (eraseKey b.buffer out.1) f.timetag = none := by
        apply lookupKey_eq_none.mpr
        intro hmem
        apply lookupKey_eq_none.mp hlk
        rw [keys_eraseKey] at hmem
        exact (List.mem_filter.mp hmem).1
      have hbuf : b''.buffer = eraseKey b.buffer out.1 ++ [(f.timetag, [f])] := by
        rw [hb]
        rw [show (rawAdd b f).buffer = b.buffer ++ [(f.timetag, [f])] from rfl]
        exact eraseKey_append_singleton_ne hm _ _
      have hlk2 : lookupKey b''.buffer f.timetag = some [f] := by
        rw [hbuf]
        exact lookupKey_append_singleton hlkerase [f]
      have hchan2 : f.first_chan ∈ b''.chans := by rw [hch]; exact hchan
      have hstep := insertFrame_of_dup hchan2 hlk2 (by simp)
      rw [hstep]
  · exfalso
    have hne : (rawAdd b f).buffer ≠ [] := by simp [rawAdd]
    have hent' : ∀ e ∈ (rawAdd b f).buffer, e.2 ≠ [] :=
      fun e he => (rawAdd_entries hchan hent e he).1
    have := evictSmallest_isSome hne hent'
    rw [hev] at this
    simp at this

/-- Witness for C6: inserting the same frame twice into a concrete
well-formed buffer, via `insert_idempotent`. -/
theorem insert_idempotent_witness :
    (insertFrame (insertFrame ⟨[10, 20], 2, [(1, [tframe 1 10 0])]⟩
        (tframe 1 20 3)).1 (tframe 1 20 3)).1 =
      (insertFrame ⟨[10, 20], 2, [(1, [tframe 1 10 0])]⟩ (tframe 1 20 3)).1 :=
  insert_idempotent ⟨[10, 20], 2, [(1, [tframe 1 10 0])]⟩ (tframe 1 20 3) (by decide)

/-! ### Fill synthesis during eviction (C1, C2) -/

theorem createFill_byte_zero {fs : List RawTBFFrame} {c : Nat} {fl : RawTBFFrame}
    (h : createFill fs c = some fl) : ∀ i, 24 ≤ i → fl.byte i = 0 := by
  obtain ⟨t, rest, rfl⟩ : ∃ t rest, fs = t :: rest := by
    cases fs with
    | nil => simp [createFill] at h
    | cons t r => exact ⟨t, r, rfl⟩
  simp only [createFill, Option.some.injEq] at h
  subst h
  intro i hi
  simp only [RawTBFFrame.byte, List.getD_eq_getElem?_getD]
  rw [List.getElem?_append_right (by
      simp only [List.length_take, List.length_set]
      omega)]
  rw [List.getElem?_replicate]
  split <;> rfl

theorem createFill_byte_copy {fs : List RawTBFFrame} {c : Nat} {fl : RawTBFFrame}
    (h : createFill fs c = some fl) {t : RawTBFFrame} (ht : fs.head? = some t) :
    ∀ i, i < 24 → i ≠ 12 → i ≠ 13 → fl.byte i = t.byte i := by
  obtain ⟨a, rest, rfl⟩ : ∃ a rest, fs = a :: rest := by
    cases fs with
    | nil => simp [createFill] at h
    | cons a r => exact ⟨a, r, rfl⟩
  have ha : a = t := by simpa using ht
  subst ha
  simp only [createFill, Option.some.injEq] at h
  subst h
  intro i h24 h12 h13
  simp only [RawTBFFrame.byte, List.getD_eq_getElem?_getD]
  by_cases hlt : i < (((a.contents.set 12 ((c &&& 0xFF00) >>> 8)).set 13
      (c &&& 0x00FF)).take 24).length
  · rw [List.getElem?_append_left hlt,
      List.getElem?_take_of_lt h24,
      List.getElem?_set_ne (Ne.symm h13), List.getElem?_set_ne (Ne.symm h12)]
  · rw [List.getElem?_append_right (le_of_not_lt hlt)]
    simp only [List.length_take, List.length_set, not_lt] at hlt
    have hlen : a.contents.length ≤ i := by omega
    rw [List.getElem?_replicate, List.getElem?_eq_none hlen]
    split <;> rfl

/-- C1 (amended): when a pending key is evicted from a well-formed buffer,
every configured channel with no real frame at that key is represented in
the emitted set by a fill frame synthesized by `createFill` from the frames
pending at the evicted key — i.e. cloned from the *first frame that arrived
for that key*, whatever channel it belongs to, with payload bytes zeroed
and non-channel header bytes copied from that first frame.  There is no
per-channel template in the code. -/
theorem evict_fills_from_first_frame (b : ReorderFillBuffer) (k : Nat)
    (out : List RawTBFFrame) (b' : ReorderFillBuffer)
    (hev : evictSmallest b = some ((k, out), b')) :
    ∀ c ∈ b.chans, (∀ g ∈ framesAt b k, g.first_chan ≠ c) →
      ∃ fl, createFill (framesAt b k) c = some fl ∧ fl ∈ out ∧
        (∀ i, 24 ≤ i → fl.byte i = 0) ∧
        (∀ t, (framesAt b k).head? = some t →
          ∀ i, i < 24 → i ≠ 12 → i ≠ 13 → fl.byte i = t.byte i) := by
  intro c hc hmiss
  obtain ⟨hs, hb, hch, hns, fills, hfills, hout⟩ := evictSmallest_eq_some hev
  have hanyf : ((framesAt b k).any fun g => g.first_chan == c) = false :=
    any_chan_eq_false.mpr hmiss
  obtain ⟨fl, hfl, hmem⟩ := fillsFor_mem hfills hc hanyf
  exact ⟨fl, hfl, by rw [hout]; exact List.mem_append_right _ hmem,
    createFill_byte_zero hfl, fun t ht => createFill_byte_copy hfl ht⟩

/-- Witness for the amended C1 at a concrete one-key buffer whose channel
20 never arrived: the fill comes from `createFill` on key 1's frames. -/
theorem evict_fills_from_first_frame_witness :
    ∃ fl, createFill (framesAt ⟨[10, 20], 2, [(1, [tframe 1 10 0])]⟩ 1) 20 = some fl ∧
      fl ∈ [tframe 1 10 0] ++ [(createFill [tframe 1 10 0] 20).getD default] ∧
      (∀ i, 24 ≤ i → fl.byte i = 0) ∧
      (∀ t, (framesAt ⟨[10, 20], 2, [(1, [tframe 1 10 0])]⟩ 1).head? = some t →
        ∀ i, i < 24 → i ≠ 12 → i ≠ 13 → fl.byte i = t.byte i) :=
  evict_fills_from_first_frame ⟨[10, 20], 2, [(1, [tframe 1 10 0])]⟩ 1
    ([tframe 1 10 0] ++ [(createFill [tframe 1 10 0] 20).getD default])
    ⟨[10, 20], 2, []⟩ rfl 20 (by decide) (by decide)

/-- The spec's §8 fill scenario: channels 10 and 20 for keys 1–2, channel
30 only at key 2 (marker byte 99), and a key-3 frame that forces eviction
of key 1. -/
def cex1trace : List RawTBFFrame :=
  [tframe 1 10 7, tframe 1 20 8, tframe 2 10 9, tframe 2 20 10,
    tframe 2 30 99, tframe 3 10 11]

/-- Counterexample to C1 as stated: in the spec's own scenario the fill
frame emitted for channel 30 at evicted key 1 carries header byte 5 = 7,
copied from key 1's first-arrived channel-10 frame — not 99, the marker of
the most recently seen channel-30 real frame (key 2's), which is what the
claimed per-channel template (`specFill` on that frame) would produce.  The
spec-predicted fill frame is not in the emitted set at all. -/
theorem evict_fill_template_counterexample :
    ((((runInserts (ReorderFillBuffer.init [10, 20, 30] 2) cex1trace).2.headD
        (0, [])).2.filter (fun g => g.first_chan == 30)).map
          (fun g => g.byte 5)) = [7] ∧
    (specFill (tframe 2 30 99) 1 30).byte 5 = 99 ∧
    specFill (tframe 2 30 99) 1 30 ∉
      ((runInserts (ReorderFillBuffer.init [10, 20, 30] 2) cex1trace).2.headD
        (0, [])).2 := by
  decide

/-- C2 (amended): eviction of a well-formed, non-empty buffer never fails;
in particular there is no `NoTemplateAvailable` condition — a channel that
has never contributed a real frame is simply filled from the evicted key's
first-arrived frame, because `createFill` only consults
`self.buffer[key][0]`. -/
theorem evict_never_fails (b : ReorderFillBuffer) (hW : WF b)
    (hne : b.buffer ≠ []) : (evictSmallest b).isSome :=
  evictSmallest_isSome hne fun e he => ((hW.2.2) e he).1

/-- Witness for the amended C2: a buffer whose configured channels 20 and
30 have never received any frame still evicts successfully. -/
theorem evict_never_fails_witness :
    (evictSmallest ⟨[10, 20, 30], 2, [(1, [tframe 1 10 0])]⟩).isSome :=
  evict_never_fails ⟨[10, 20, 30], 2, [(1, [tframe 1 10 0])]⟩ (by decide) (by decide)

/-- Insertions for keys 1 and 2 on channels 10 and 20 only, then a key-3
frame forcing eviction of key 1 while channel 30 has never been seen. -/
def cex2trace : List RawTBFFrame :=
  [tframe 1 10 0, tframe 1 20 0, tframe 2 10 0, tframe 2 20 0, tframe 3 10 0]

/-- Counterexample to C2 as stated: channel 30 never contributes a frame,
yet the forced eviction of key 1 emits a complete three-frame set (two real
frames plus a fabricated channel-30 fill) instead of failing with a
`NoTemplateAvailable` condition naming channel 30. -/
theorem evict_no_template_counterexample :
    (runInserts (ReorderFillBuffer.init [10, 20, 30] 2) cex2trace).2.map Prod.fst
      = [1] ∧
    ((runInserts (ReorderFillBuffer.init [10, 20, 30] 2) cex2trace).2.headD
      (0, [])).2.length = 3 ∧
    (∀ g ∈ cex2trace, g.first_chan ≠ 30) := by
  decide

/-! ### pop_complete (C5) -/

theorem insertFrame_frames_mem (b : ReorderFillBuffer) (f : RawTBFFrame) :
    ∀ e ∈ (insertFrame b f).1.buffer, ∀ g ∈ e.2,
      (∃ e0 ∈ b.buffer, g ∈ e0.2) ∨ g = f := by
  have hraw : ∀ e ∈ (rawAdd b f).buffer, ∀ g ∈ e.2,
      (∃ e0 ∈ b.buffer, g ∈ e0.2) ∨ g = f := by
    intro e he g hg
    simp only [rawAdd, List.mem_append, List.mem_singleton] at he
    rcases he with he | rfl
    · exact Or.inl ⟨e, he, hg⟩
    · simp only [List.mem_singleton] at hg
      exact Or.inr hg
  rcases insertFrame_cases b f with ⟨hchan, heq⟩ | ⟨fs, hchan, hlk, hdup, heq⟩ |
    ⟨fs, hchan, hlk, hdup, heq⟩ | ⟨hchan, hlk, hsz, heq⟩ |
    ⟨out, b'', hchan, hlk, hsz, hev, heq⟩ | ⟨hchan, hlk, hsz, hev, heq⟩
  · rw [heq]; exact fun e he g hg => Or.inl ⟨e, he, hg⟩
  · rw [heq]; exact fun e he g hg => Or.inl ⟨e, he, hg⟩
  · rw [heq]
    intro e he g hg
    rcases mem_updateKey he with he | rfl
    · exact Or.inl ⟨e, he, hg⟩
    · rcases List.mem_append.mp hg with hg | hg
      · exact Or.inl ⟨(f.timetag, fs), lookupKey_some_mem hlk, hg⟩
      · simp only [List.mem_singleton] at hg
        exact Or.inr hg
  · rw [heq]; exact hraw
  · rw [heq]
    obtain ⟨_, hb, _, _, _⟩ := @evictSmallest_eq_some (rawAdd b f)
      out.1 out.2 b'' (by rw [hev])
    intro e he g hg
    rw [hb] at he
    exact hraw e (mem_eraseKey.mp he).1 g hg
  · rw [heq]; exact hraw

theorem runInserts_acc_fst (b : ReorderFillBuffer)
    (acc : List (Nat × List RawTBFFrame)) (frames : List RawTBFFrame) :
    (frames.foldl (fun acc f =>
        let step := insertFrame acc.1 f
        (step.1, acc.2 ++ step.2.toList)) (b, acc)).1
      = (runInserts b frames).1 := by
  induction frames generalizing b acc with
  | nil => rfl
  | cons f rest ih =>
    simp only [runInserts, List.foldl_cons]
    rw [ih, ih]

theorem runInserts_frames_mem (b0 : ReorderFillBuffer)
    (frames : List RawTBFFrame) :
    ∀ e ∈ (runInserts b0 frames).1.buffer, ∀ g ∈ e.2,
      (∃ e0 ∈ b0.buffer, g ∈ e0.2) ∨ g ∈ frames := by
  induction frames generalizing b0 with
  | nil => exact fun e he g hg => Or.inl ⟨e, he, hg⟩
  | cons f rest ih =>
    intro e he g hg
    have hstep : (runInserts b0 (f :: rest)).1 = (runInserts (insertFrame b0 f).1 rest).1 := by
      simp only [runInserts, List.foldl_cons]
      exact runInserts_acc_fst _ _ _
    rw [hstep] at he
    rcases ih (insertFrame b0 f).1 e he g hg with hmem | hmem
    · obtain ⟨e0, he0, hg0⟩ := hmem
      rcases insertFrame_frames_mem b0 f e0 he0 g hg0 with hmem2 | rfl
      · exact Or.inl hmem2
      · exact Or.inr (List.mem_cons_self _ _)
    · exact Or.inr (List.mem_cons_of_mem _ hmem)

/-- C5: `pop_complete` succeeds exactly when the smallest pending key's set
is complete (one frame per configured channel); it then returns precisely
the stored real frames of that key — if the buffer state was produced by
insertions, every returned frame is one the caller inserted, so no fill
frame appears — and removes exactly that key. -/
theorem pop_complete_spec (b : ReorderFillBuffer) (hW : WF b) :
    ((pop_complete b).isSome ↔
      ∃ k, k ∈ b.keys ∧ (∀ k' ∈ b.keys, k ≤ k') ∧
        ∀ c ∈ b.chans, ∃ g ∈ framesAt b k, g.first_chan = c) ∧
    (∀ k out b', pop_complete b = some ((k, out), b') →
      (k ∈ b.keys ∧ ∀ k' ∈ b.keys, k ≤ k') ∧
      (∀ c ∈ b.chans, ∃ g ∈ out, g.first_chan = c) ∧
      out = framesAt b k ∧
      b'.buffer = eraseKey b.buffer k ∧
      b'.chans = b.chans ∧ b'.nsegments = b.nsegments ∧
      (∀ frames, b = (runInserts (ReorderFillBuffer.init b.chans b.nsegments)
          frames).1 → ∀ g ∈ out, g ∈ frames)) := by
  obtain ⟨hnd, hlen, hent⟩ := hW
  cases hs : smallestKey b.buffer with
  | none =>
    have hempty : b.buffer = [] := smallestKey_eq_none.mp hs
    constructor
    · simp only [pop_complete, hs]
      constructor
      · intro h; simp at h
      · rintro ⟨k, hk, _⟩
        rw [show b.keys = [] by simp [ReorderFillBuffer.keys, hempty]] at hk
        simp at hk
    · intro k out b' h
      simp only [pop_complete, hs] at h
      exact absurd h (by simp)
  | some k0 =>
    have hk0mem : k0 ∈ b.keys := smallestKey_mem hs
    have hk0le : ∀ k' ∈ b.keys, k0 ≤ k' := smallestKey_le hs
    cases hall : b.chans.all
        (fun c => (framesAt b k0).any fun g => g.first_chan == c) with
    | true =>
      have hcomp : ∀ c ∈ b.chans, ∃ g ∈ framesAt b k0, g.first_chan = c := by
        intro c hc
        have := List.all_eq_true.mp hall c hc
        obtain ⟨g, hg, hgc⟩ := List.any_eq_true.mp this
        exact ⟨g, hg, by simpa using hgc⟩
      have hpop : pop_complete b =
          some ((k0, framesAt b k0), { b with buffer := eraseKey b.buffer k0 }) := by
        simp only [pop_complete, hs, hall]
        simp
      constructor
      · simp only [hpop]
        exact ⟨fun _ => ⟨k0, hk0mem, hk0le, hcomp⟩, fun _ => rfl⟩
      · intro k out b' h
        rw [hpop] at h
        simp only [Option.some.injEq, Prod.mk.injEq] at h
        obtain ⟨⟨hk, hout⟩, hb⟩ := h
        subst hk
        subst hb
        refine ⟨⟨hk0mem, hk0le⟩, ?_, hout.symm, rfl, rfl, rfl, ?_⟩
        · rw [← hout]; exact hcomp
        · intro frames hrun g hg
          rw [← hout] at hg
          have hkmem' : k0 ∈ b.buffer.map Prod.fst := hk0mem
          obtain ⟨fs, hfs⟩ := Option.isSome_iff_exists.mp (lookupKey_isSome.mpr hkmem')
          rw [framesAt_of_lookup hfs] at hg
          have := runInserts_frames_mem (ReorderFillBuffer.init b.chans b.nsegments)
            frames ((k0, fs)) (by rw [← hrun]; exact lookupKey_some_mem hfs) g hg
          rcases this with ⟨e0, he0, _⟩ | hmem
          · simp [ReorderFillBuffer.init] at he0
          · exact hmem
    | false =>
      have hpop : pop_complete b = none := by
        simp only [pop_complete, hs, hall]
        rw [if_neg (by simp)]
      constructor
      · rw [hpop]
        simp only [Option.isSome_none, Bool.false_eq_true, false_iff]
        rintro ⟨k, hkmem, hkle, hcomp⟩
        have hkk0 : k = k0 := le_antisymm (hkle k0 hk0mem) (hk0le k hkmem)
        subst hkk0
        obtain ⟨c, hc, hnone⟩ := by
          have := List.all_eq_false.mp hall
          simpa using this
        obtain ⟨g, hg, hgc⟩ := hcomp c hc
        exact hnone g hg (by simpa using hgc)
      · intro k out b' h
        rw [hpop] at h
        simp at h

/-- Witness for C5 at a concrete buffer holding a complete set for key 2. -/
def popDemoBuffer : ReorderFillBuffer :=
  ⟨[10, 20], 3, [(2, [tframe 2 10 1, tframe 2 20 2])]⟩

theorem pop_complete_spec_witness :
    ((pop_complete popDemoBuffer).isSome ↔
      ∃ k, k ∈ popDemoBuffer.keys ∧ (∀ k' ∈ popDemoBuffer.keys, k ≤ k') ∧
        ∀ c ∈ popDemoBuffer.chans, ∃ g ∈ framesAt popDemoBuffer k, g.first_chan = c) ∧
    (∀ k out b', pop_complete popDemoBuffer = some ((k, out), b') →
      (k ∈ popDemoBuffer.keys ∧ ∀ k' ∈ popDemoBuffer.keys, k ≤ k') ∧
      (∀ c ∈ popDemoBuffer.chans, ∃ g ∈ out, g.first_chan = c) ∧
      out = framesAt popDemoBuffer k ∧
      b'.buffer = eraseKey popDemoBuffer.buffer k ∧
      b'.chans = popDemoBuffer.chans ∧ b'.nsegments = popDemoBuffer.nsegments ∧
      (∀ frames, popDemoBuffer = (runInserts (ReorderFillBuffer.init
          popDemoBuffer.chans popDemoBuffer.nsegments) frames).1 →
        ∀ g ∈ out, g ∈ frames)) :=
  pop_complete_spec popDemoBuffer (by decide)

/-! ### drain (C7) and emission order (C3) -/

theorem filter_ne_eq_erase {l : List Nat} (hnd : l.Nodup) (k : Nat) :
    l.filter (· ≠ k) = l.erase k := by
  rw [List.Nodup.erase_eq_filter hnd]
  apply List.filter_congr
  intro x _
  by_cases hxk : x = k <;> simp [hxk]

theorem drainAux_spec :
    ∀ (n : Nat) (b : ReorderFillBuffer), WF b → b.buffer.length = n →
      ((drainAux n b).1.map Prod.fst).Perm b.keys ∧
      List.Pairwise (· < ·) ((drainAux n b).1.map Prod.fst) ∧
      (drainAux n b).2.buffer = [] := by
  intro n
  induction n with
  | zero =>
    intro b hW hlen
    have hempty : b.buffer = [] := List.length_eq_zero.mp hlen
    refine ⟨?_, ?_, ?_⟩ <;> simp [drainAux, ReorderFillBuffer.keys, hempty]
  | succ n ih =>
    intro b hW hlen
    have hne : b.buffer ≠ [] := by intro h; rw [h] at hlen; simp at hlen
    have hent' : ∀ e ∈ b.buffer, e.2 ≠ [] := fun e he => (hW.2.2 e he).1
    obtain ⟨⟨⟨k, out⟩, b'⟩, hev⟩ :=
      Option.isSome_iff_exists.mp (evictSmallest_isSome hne hent')
    obtain ⟨hs, hb, hch, hns, _⟩ := evictSmallest_eq_some hev
    have hW' : WF b' := evictSmallest_WF hW hev
    have hkmem : k ∈ b.keys := smallestKey_mem hs
    have hnd := hW.1
    have hlen' : b'.buffer.length = n := by
      rw [hb]
      have := length_eraseKey_of_mem hkmem hnd
      omega
    obtain ⟨ihp, ihs, ihe⟩ := ih b' hW' hlen'
    have hkeys' : b'.keys = b.keys.filter (· ≠ k) := by
      show b'.buffer.map Prod.fst = _
      rw [hb, keys_eraseKey]
      rfl
    have hperm : b.keys.Perm (k :: b'.keys) := by
      rw [hkeys', filter_ne_eq_erase hnd k]
      exact List.perm_cons_erase hkmem
    have hstep : drainAux (n + 1) b = ((k, out) :: (drainAux n b').1, (drainAux n b').2) := by
      simp only [drainAux, hev]
    refine ⟨?_, ?_, ?_⟩
    · rw [hstep]
      simp only [List.map_cons]
      exact (List.Perm.cons k ihp).trans hperm.symm
    · rw [hstep]
      simp only [List.map_cons]
      refine List.Pairwise.cons ?_ ihs
      intro x hx
      have hxmem : x ∈ b'.keys := ihp.mem_iff.mp hx
      rw [hkeys'] at hxmem
      have hsplit := List.mem_filter.mp hxmem
      have hxk : x ≠ k := by simpa using hsplit.2
      have hle : k ≤ x := smallestKey_le hs x hsplit.1
      omega
    · rw [hstep]; exact ihe

/-- C7: `drain` emits exactly one `(key, frame set)` pair per pending key
(the emitted keys are a permutation of the pending keys, in strictly
increasing order — smallest first), each produced by the flush-or-fill
eviction it is defined from; afterwards nothing is pending, and on an empty
buffer it produces an empty sequence. -/
theorem drain_spec (b : ReorderFillBuffer) (hW : WF b) :
    ((drain b).1.map Prod.fst).Perm b.keys ∧
    List.Pairwise (· < ·) ((drain b).1.map Prod.fst) ∧
    (drain b).2.buffer = [] ∧
    (b.buffer = [] → (drain b).1 = []) := by
  obtain ⟨h1, h2, h3⟩ := drainAux_spec b.buffer.length b hW rfl
  refine ⟨h1, h2, h3, ?_⟩
  intro hempty
  have hkeys : b.keys = [] := by simp [ReorderFillBuffer.keys, hempty]
  have hnil : (drain b).1.map Prod.fst = [] := (hkeys ▸ h1).eq_nil
  exact List.map_eq_nil_iff.mp hnil

/-- Witness for C7 at a concrete buffer with keys pending out of order. -/
theorem drain_spec_witness :
    ((drain ⟨[10], 3, [(2, [tframe 2 10 0]), (1, [tframe 1 10 1])]⟩).1.map
      Prod.fst).Perm
        (⟨[10], 3, [(2, [tframe 2 10 0]), (1, [tframe 1 10 1])]⟩ :
          ReorderFillBuffer).keys ∧
    List.Pairwise (· < ·)
      ((drain ⟨[10], 3, [(2, [tframe 2 10 0]), (1, [tframe 1 10 1])]⟩).1.map
        Prod.fst) ∧
    (drain ⟨[10], 3, [(2, [tframe 2 10 0]), (1, [tframe 1 10 1])]⟩).2.buffer = [] ∧
    ((⟨[10], 3, [(2, [tframe 2 10 0]), (1, [tframe 1 10 1])]⟩ :
        ReorderFillBuffer).buffer = [] →
      (drain ⟨[10], 3, [(2, [tframe 2 10 0]), (1, [tframe 1 10 1])]⟩).1 = []) :=
  drain_spec ⟨[10], 3, [(2, [tframe 2 10 0]), (1, [tframe 1 10 1])]⟩ (by decide)

theorem pop_complete_eq_some {b : ReorderFillBuffer} {k : Nat}
    {out : List RawTBFFrame} {b' : ReorderFillBuffer}
    (h : pop_complete b = some ((k, out), b')) :
    smallestKey b.buffer = some k ∧ out = framesAt b k ∧
    b'.buffer = eraseKey b.buffer k := by
  unfold pop_complete at h
  cases hs : smallestKey b.buffer with
  | none => rw [hs] at h; simp at h
  | some k0 =>
    rw [hs] at h
    simp only at h
    split_ifs at h with hc
    · simp only [Option.some.injEq, Prod.mk.injEq] at h
      obtain ⟨⟨hk, hout⟩, hb⟩ := h
      subst hk
      subst hb
      exact ⟨rfl, hout.symm, rfl⟩

/-- C3 (amended): each emitted key is strictly smaller than every key still
pending after the emission — for forced evictions and for `pop_complete`
alike — and the keys emitted by one `drain` are strictly increasing.  The
unconditional claim over arbitrary insertion sequences is false (see the
counterexample): a frame whose key is below an already-emitted key opens a
fresh pending entry that is later emitted out of order, the code having no
staleness guard. -/
theorem emission_order (b : ReorderFillBuffer) (hW : WF b) :
    (∀ k out b', evictSmallest b = some ((k, out), b') → ∀ k' ∈ b'.keys, k < k') ∧
    (∀ k out b', pop_complete b = some ((k, out), b') → ∀ k' ∈ b'.keys, k < k') ∧
    List.Pairwise (· < ·) ((drain b).1.map Prod.fst) := by
  have herase : ∀ (k : Nat) (bb : PendingSet), smallestKey bb = some k →
      ∀ k' ∈ (eraseKey bb k).map Prod.fst, k < k' := by
    intro k bb hs k' hk'
    rw [keys_eraseKey] at hk'
    have hsplit := List.mem_filter.mp hk'
    have hne : k' ≠ k := by simpa using hsplit.2
    have hle : k ≤ k' := smallestKey_le hs k' hsplit.1
    omega
  refine ⟨?_, ?_, (drainAux_spec b.buffer.length b hW rfl).2.1⟩
  · intro k out b' hev k' hk'
    obtain ⟨hs, hb, _, _, _⟩ := evictSmallest_eq_some hev
    have : k' ∈ (eraseKey b.buffer k).map Prod.fst := by
      show k' ∈ _
      rw [← hb]
      exact hk'
    exact herase k b.buffer hs k' this
  · intro k out b' hpop k' hk'
    obtain ⟨hs, _, hb⟩ := pop_complete_eq_some hpop
    have : k' ∈ (eraseKey b.buffer k).map Prod.fst := by
      show k' ∈ _
      rw [← hb]
      exact hk'
    exact herase k b.buffer hs k' this

/-- Witness for the amended C3 at a concrete two-key buffer. -/
theorem emission_order_witness :
    (∀ k out b', evictSmallest ⟨[10], 3, [(4, [tframe 4 10 0]), (9, [tframe 9 10 0])]⟩
        = some ((k, out), b') → ∀ k' ∈ b'.keys, k < k') ∧
    (∀ k out b', pop_complete ⟨[10], 3, [(4, [tframe 4 10 0]), (9, [tframe 9 10 0])]⟩
        = some ((k, out), b') → ∀ k' ∈ b'.keys, k < k') ∧
    List.Pairwise (· < ·)
      ((drain ⟨[10], 3, [(4, [tframe 4 10 0]), (9, [tframe 9 10 0])]⟩).1.map
        Prod.fst) :=
  emission_order ⟨[10], 3, [(4, [tframe 4 10 0]), (9, [tframe 9 10 0])]⟩ (by decide)

/-- Channel 10 sends keys 5, 6, 7 (strictly increasing per channel) and
channel 20 then sends its first frame with key 3. -/
def cex3trace : List RawTBFFrame :=
  [tframe 5 10 0, tframe 6 10 0, tframe 7 10 0, tframe 3 20 0]

/-- Counterexample to C3 as stated: with `channels = {10, 20}` and window
depth 2, the insertion sequence of `cex3trace` — whose keys are strictly
increasing on each channel — makes the buffer emit key 5 and then key 3:
emitted keys are not strictly increasing and a smaller key follows a larger
one. -/
theorem emission_order_counterexample :
    (runInserts (ReorderFillBuffer.init [10, 20] 2) cex3trace).2.map Prod.fst
      = [5, 3] ∧
    ¬ List.Pairwise (· < ·)
      ((runInserts (ReorderFillBuffer.init [10, 20] 2) cex3trace).2.map Prod.fst) ∧
    List.Pairwise
      (fun f g => f.first_chan = g.first_chan → f.timetag < g.timetag) cex3trace := by
  decide

/-! ## The channel-continuity check in `main` (C10) -/

/-- Ascending insertion into a sorted list. -/
def insertSorted (x : Nat) : List Nat → List Nat
  | [] => [x]
  | y :: ys => if x ≤ y then x :: y :: ys else y :: insertSorted x ys

/-- The `chans.sort()` call of `main`: ascending sort. -/
def sortChans (l : List Nat) : List Nat :=
  l.foldr insertSorted []

/-- The `RuntimeError` raised by `main`, carrying the offending channel
increment reported in its message. -/
inductive MuxError where
  | runtimeError (increment : Int)
deriving Repr, DecidableEq

/-- The check loop of `main` (tbfMux.py:163-166): walk the sorted channel
list and raise `RuntimeError` at the first adjacent step that is not
exactly 12. -/
def checkChans : List Nat → Except MuxError Unit
  | [] => .ok ()
  | [_] => .ok ()
  | c1 :: c2 :: rest =>
    if c2 ≠ c1 + 12 then .error (.runtimeError ((c2 : Int) - (c1 : Int)))
    else checkChans (c2 :: rest)

/-- The acceptance prefix of `main`: concatenate every input file's
start-channel list, sort, and run the increment check.  In the source all
of this happens before the frame buffer is created, before any frame is
read, and before the output file is opened; the model embeds exactly this
pre-buffering prefix. -/
def mainChanCheck (fileChans : List (List Nat)) : Except MuxError (List Nat) :=
  let chans := sortChans (fileChans.foldl (fun acc l => acc ++ l) [])
  match checkChans chans with
  | .ok () => .ok chans
  | .error e => .error e

theorem checkChans_ok_iff (l : List Nat) :
    checkChans l = .ok () ↔ List.Chain' (fun a b => b = a + 12) l := by
  induction l with
  | nil => simp [checkChans]
  | cons c1 rest ih =>
    cases rest with
    | nil => simp [checkChans]
    | cons c2 rest2 =>
      simp only [checkChans, List.chain'_cons]
      split_ifs with hne
      · simp [hne]
      · simp only [not_not] at hne
        rw [ih]
        simp [hne]

theorem chain12_nodup {l : List Nat}
    (h : List.Chain' (fun a b => b = a + 12) l) : l.Nodup := by
  have hlt : List.Chain' (· < ·) l := h.imp (fun hab => by omega)
  have hp : List.Pairwise (· < ·) l := List.chain'_iff_pairwise.mp hlt
  exact hp.nodup

/-- C10: the driver accepts a set of input files exactly when the sorted
concatenation of their start channels increases in steps of exactly 12; an
accepted channel list is duplicate-free, so it coincides with the sorted
union of the files' channels, and if the sorted union violates the
12-step property the check returns a `RuntimeError` — raised, in the
source, before any frame is buffered or any output is written (the model
is this pre-buffering prefix of `main`). -/
theorem main_channel_check (fileChans : List (List Nat)) :
    (∀ chans, mainChanCheck fileChans = .ok chans →
      chans = sortChans (fileChans.foldl (fun acc l => acc ++ l) []) ∧
      List.Chain' (fun a b => b = a + 12) chans ∧
      chans.dedup = chans) ∧
    (¬ List.Chain' (fun a b => b = a + 12)
        ((sortChans (fileChans.foldl (fun acc l => acc ++ l) [])).dedup) →
      ∃ e, mainChanCheck fileChans = .error e) := by
  constructor
  · intro chans hok
    cases hc : checkChans (sortChans (fileChans.foldl (fun acc l => acc ++ l) [])) with
    | ok u =>
      cases u
      simp only [mainChanCheck, hc, Except.ok.injEq] at hok
      subst hok
      have hchain := (checkChans_ok_iff _).mp hc
      exact ⟨rfl, hchain, List.dedup_eq_self.mpr (chain12_nodup hchain)⟩
    | error e =>
      simp only [mainChanCheck, hc] at hok
      exact absurd hok (by simp)
  · intro hnot
    cases hc : checkChans (sortChans (fileChans.foldl (fun acc l => acc ++ l) [])) with
    | ok u =>
      cases u
      exfalso
      have hchain := (checkChans_ok_iff _).mp hc
      rw [List.dedup_eq_self.mpr (chain12_nodup hchain)] at hnot
      exact hnot hchain
    | error e =>
      refine ⟨e, ?_⟩
      simp only [mainChanCheck, hc]

/-- Witness for C10 at two concrete single-channel files with consecutive
start channels 2512 and 2524. -/
theorem main_channel_check_witness :
    (∀ chans, mainChanCheck [[2524], [2512]] = .ok chans →
      chans = sortChans ([[2524], [2512]].foldl (fun acc l => acc ++ l) []) ∧
      List.Chain' (fun a b => b = a + 12) chans ∧
      chans.dedup = chans) ∧
    (¬ List.Chain' (fun a b => b = a + 12)
        ((sortChans ([[2524], [2512]].foldl (fun acc l => acc ++ l) [])).dedup) →
      ∃ e, mainChanCheck [[2524], [2512]] = .error e) :=
  main_channel_check [[2524], [2512]]
